import Mathlib

/-!
Shallow embedding of `livekit/agents/voice/transcription/interruption_filter.py`:
the context-aware speech-interruption classifier (configuration model, text
normalization, interrupt-keyword containment, ignore-word exhaustiveness).

Text is modelled as `List Char`.  Python's character classes (`\w`, `str.lower`,
whitespace) are modelled at the ASCII level, which covers every default
configuration entry and every behaviour the specification describes.
-/

namespace InterruptionFilter

abbrev Text := List Char

/-- Convert a string literal to the `List Char` text representation. -/
def str (s : String) : Text := s.data

/-- The apostrophe character (code point 39), used by the default keywords. -/
def apos : Char := Char.ofNat 39

/-- Build a contraction such as the keyword spelled d-o-n-apostrophe-t. -/
def contraction (a b : String) : Text := a.data ++ apos :: b.data

/-- ASCII model of Python's regex word-character class `\w`:
letters, digits, or underscore (code point 95). -/
def isWordChar (c : Char) : Bool :=
  (97 ≤ c.toNat && c.toNat ≤ 122) || (65 ≤ c.toNat && c.toNat ≤ 90) ||
    (48 ≤ c.toNat && c.toNat ≤ 57) || c.toNat == 95

/-- ASCII model of Python's `str` whitespace class (space, tab, newline,
carriage return, vertical tab, form feed). -/
def pyIsSpace (c : Char) : Bool :=
  c.toNat == 32 || c.toNat == 9 || c.toNat == 10 || c.toNat == 13 ||
    c.toNat == 11 || c.toNat == 12

/-- ASCII model of Python's `str.lower` applied to one character:
map A-Z (65-90) to a-z by adding 32, leave everything else unchanged. -/
def pyLowerChar (c : Char) : Char :=
  if h : 65 ≤ c.toNat ∧ c.toNat ≤ 90 then
    Char.ofNatAux (c.toNat + 32) (Or.inl (by omega))
  else c

/-- Python's `text.split()`: split on whitespace runs, dropping empty pieces. -/
def pySplit : Text → List Text
  | [] => []
  | c :: rest =>
    if pyIsSpace c then pySplit rest
    else
      match rest with
      | [] => [[c]]
      | d :: _ =>
        if pyIsSpace d then [c] :: pySplit rest
        else
          match pySplit rest with
          | [] => [[c]]
          | w :: ws => (c :: w) :: ws

/-- Python's `" ".join(words)`. -/
def joinSpace : List Text → Text
  | [] => []
  | [w] => w
  | w :: ws => w ++ ' ' :: joinSpace ws

/-- Source `_normalize_text`: `" ".join(text.lower().split())` — lower-case,
collapse whitespace runs to single spaces, trim the ends. -/
def normalize_text (s : Text) : Text := joinSpace (pySplit (s.map pyLowerChar))

/-- Wordness of an optional character; absent characters (string edges) count
as non-word, exactly as for Python's regex `\b`. -/
def isWordOpt : Option Char → Bool
  | some c => isWordChar c
  | none => false

/-- A regex word boundary sits between two positions whose characters differ
in wordness. -/
def boundary (l r : Option Char) : Bool := isWordOpt l != isWordOpt r

/-- The regex `\b k \b` (with `k` a literal) matches at the head of `s`,
where `prev` is the character just before `s` in the full text.  The empty
literal is treated as never matching; the configuration invariant rules out
empty entries. -/
def matchHere (k : Text) (prev : Option Char) (s : Text) : Bool :=
  !k.isEmpty && k.isPrefixOf s && boundary prev k.head? &&
    boundary k.getLast? (s.drop k.length).head?

/-- Scan of `re.search` for the pattern `\b k \b`: try every position. -/
def wbSearchAux (k : Text) : Option Char → Text → Bool
  | prev, [] => matchHere k prev []
  | prev, c :: rest => matchHere k prev (c :: rest) || wbSearchAux k (some c) rest

/-- Python `re.search(r"\b" + re.escape(k) + r"\b", s) is not None`. -/
def wbSearch (k : Text) (s : Text) : Bool := wbSearchAux k none s

/-- Python's substring test `k in s`. -/
def containsSub (k : Text) : Text → Bool
  | [] => k.isEmpty
  | c :: rest => k.isPrefixOf (c :: rest) || containsSub k rest

/-- Scan of `re.sub(r"\b" + re.escape(k) + r"\b", " ", s)`: left-to-right,
non-overlapping; each match is replaced by one space and scanning resumes
after the matched region (`skip` counts characters of the current match still
to be consumed; `prev` is the previous character of the original text). -/
def subAux (k : Text) : Nat → Option Char → Text → Text
  | _, _, [] => []
  | Nat.succ n, _, c :: rest => subAux k n (some c) rest
  | 0, prev, c :: rest =>
    if matchHere k prev (c :: rest) then
      ' ' :: subAux k (k.length - 1) (some c) rest
    else
      c :: subAux k 0 (some c) rest

/-- Python `re.sub(r"\b" + re.escape(k) + r"\b", " ", s)`. -/
def subPhrase (k : Text) (s : Text) : Text := subAux k 0 none s

/-- Stable insertion for the longest-first phrase ordering. -/
def insertByLenDesc (x : Text) : List Text → List Text
  | [] => [x]
  | y :: ys => if y.length ≤ x.length then x :: y :: ys else y :: insertByLenDesc x ys

/-- Python's `sorted(phrases, key=len, reverse=True)`: stable sort by
character length, longest first. -/
def sortByLenDesc : List Text → List Text
  | [] => []
  | x :: xs => insertByLenDesc x (sortByLenDesc xs)

/-- Characters kept by `re.sub(r"[^\w\s-]", "", word)`: word characters,
whitespace, and the hyphen (code point 45). -/
def keepChar (c : Char) : Bool := isWordChar c || pyIsSpace c || c.toNat == 45

/-- Python's `str.strip()`: drop whitespace from both ends. -/
def pyStrip (s : Text) : Text :=
  ((s.dropWhile pyIsSpace).reverse.dropWhile pyIsSpace).reverse

/-- Source token cleaning: `re.sub(r"[^\w\s-]", "", word).strip()`. -/
def clean_word (w : Text) : Text := pyStrip (w.filter keepChar)

/-- Source `InterruptionFilterConfig`.  The two frozensets are modelled as
lists; the list order stands for the (implementation-defined) iteration order
of the Python frozenset. -/
structure InterruptionFilterConfig where
  ignore_words : List Text
  interrupt_keywords : List Text
  enabled : Bool

/-- Source `_contains_interrupt_keyword`: keywords with an internal space are
matched as plain substrings, all others through `\b`-bounded regex search. -/
def contains_interrupt_keyword (keywords : List Text) (s : Text) : Bool :=
  keywords.any fun k => if k.contains ' ' then containsSub k s else wbSearch k s

/-- Source `_is_only_ignore_words`: remove multi-word ignore phrases
longest-first (each occurrence replaced by one space), then require every
remaining token to clean to the empty string or to a member of the ignore
set. -/
def is_only_ignore_words (ignore : List Text) (s : Text) : Bool :=
  let phrases := sortByLenDesc (ignore.filter fun w => w.contains ' ')
  let remaining := phrases.foldl (fun r p => subPhrase p r) s
  let remainingWords := pySplit remaining
  if remainingWords.isEmpty then true
  else remainingWords.all fun w =>
    ((clean_word w).isEmpty || ignore.contains (clean_word w))

/-- Python's emptiness-or-whitespace test `not transcript or not
transcript.strip()`. -/
def isBlank (s : Text) : Bool := s.all pyIsSpace

/-- Source `should_interrupt`: the complete decision function. -/
def should_interrupt (cfg : InterruptionFilterConfig) (transcript : Text)
    (agent_is_speaking : Bool) : Bool :=
  if !cfg.enabled then true
  else if !agent_is_speaking then true
  else if isBlank transcript then false
  else
    let normalized := normalize_text transcript
    if contains_interrupt_keyword cfg.interrupt_keywords normalized then true
    else if is_only_ignore_words cfg.ignore_words normalized then false
    else true

/-- Source `DEFAULT_IGNORE_WORDS`, in the order the module lists them. -/
def DEFAULT_IGNORE_WORDS : List Text :=
  [str "yeah", str "yes", str "yep", str "yup", str "ya", str "ok", str "okay",
   str "hmm", str "hm", str "mhm", str "uh-huh", str "uh huh", str "uhuh",
   str "right", str "aha", str "ah", str "oh", str "i see", str "sure",
   str "got it", str "gotcha", str "alright", str "cool", str "nice",
   str "great", str "good", str "fine", str "true", str "indeed",
   str "absolutely", str "exactly", str "certainly", str "definitely",
   str "of course", str "mm", str "mmm", str "mmhmm", str "mm-hmm"]

/-- Source `DEFAULT_INTERRUPT_KEYWORDS`, in the order the module lists them. -/
def DEFAULT_INTERRUPT_KEYWORDS : List Text :=
  [str "stop", str "wait", str "hold on", str "hold up", str "pause", str "no",
   str "nope", str "actually", str "but", str "however", str "excuse me",
   str "sorry", str "hang on", str "one moment", str "one second",
   str "just a moment", str "just a second", str "let me", str "i have",
   str "i need", str "i want", str "can you", str "could you", str "would you",
   str "what about", str "what if", str "how about", str "listen", str "hey",
   str "hello", str "hi", str "question", str "wait a minute",
   str "wait a second", str "not", str "never", contraction "don" "t",
   contraction "can" "t", contraction "won" "t"]

/-- The default configuration built by `InterruptionFilterConfig()`. -/
def defaultConfig : InterruptionFilterConfig :=
  ⟨DEFAULT_IGNORE_WORDS, DEFAULT_INTERRUPT_KEYWORDS, true⟩

/-- The default configuration with the filter disabled. -/
def disabledConfig : InterruptionFilterConfig :=
  ⟨DEFAULT_IGNORE_WORDS, DEFAULT_INTERRUPT_KEYWORDS, false⟩

/-! ### Character-level lemmas -/

theorem toNat_ofNatAux (n : Nat) (h : n.isValidChar) :
    (Char.ofNatAux n h).toNat = n := rfl

/-- Case analysis for the ASCII lower-casing map: either the character is an
upper-case letter and its code point moves up by 32, or it is unchanged. -/
theorem pyLowerChar_cases (c : Char) :
    ((65 ≤ c.toNat ∧ c.toNat ≤ 90) ∧ (pyLowerChar c).toNat = c.toNat + 32) ∨
      (¬(65 ≤ c.toNat ∧ c.toNat ≤ 90) ∧ pyLowerChar c = c) := by
  unfold pyLowerChar
  by_cases h : 65 ≤ c.toNat ∧ c.toNat ≤ 90
  · exact Or.inl ⟨h, by rw [dif_pos h]; exact toNat_ofNatAux _ _⟩
  · exact Or.inr ⟨h, dif_neg h⟩

theorem pyIsSpace_iff (c : Char) :
    pyIsSpace c = true ↔
      (c.toNat = 32 ∨ c.toNat = 9 ∨ c.toNat = 10 ∨ c.toNat = 13 ∨
        c.toNat = 11 ∨ c.toNat = 12) := by
  simp only [pyIsSpace, Bool.or_eq_true, beq_iff_eq]
  tauto

theorem isWordChar_iff (c : Char) :
    isWordChar c = true ↔
      ((97 ≤ c.toNat ∧ c.toNat ≤ 122) ∨ (65 ≤ c.toNat ∧ c.toNat ≤ 90) ∨
        (48 ≤ c.toNat ∧ c.toNat ≤ 57) ∨ c.toNat = 95) := by
  simp only [isWordChar, Bool.or_eq_true, Bool.and_eq_true, decide_eq_true_eq,
    beq_iff_eq]
  tauto

theorem pyIsSpace_pyLowerChar (c : Char) :
    pyIsSpace (pyLowerChar c) = pyIsSpace c := by
  rcases pyLowerChar_cases c with ⟨⟨h1, h2⟩, he⟩ | ⟨_, he⟩
  · have hl : pyIsSpace (pyLowerChar c) = false := by
      rw [← Bool.not_eq_true]
      intro hcon
      rw [pyIsSpace_iff, he] at hcon
      omega
    have hr : pyIsSpace c = false := by
      rw [← Bool.not_eq_true]
      intro hcon
      rw [pyIsSpace_iff] at hcon
      omega
    rw [hl, hr]
  · rw [he]

theorem isWordChar_pyLowerChar (c : Char) :
    isWordChar (pyLowerChar c) = isWordChar c := by
  rcases pyLowerChar_cases c with ⟨⟨h1, h2⟩, he⟩ | ⟨_, he⟩
  · have hl : isWordChar (pyLowerChar c) = true := by
      rw [isWordChar_iff]; omega
    have hr : isWordChar c = true := by
      rw [isWordChar_iff]; omega
    rw [hl, hr]
  · rw [he]

theorem pyLowerChar_idem (c : Char) :
    pyLowerChar (pyLowerChar c) = pyLowerChar c := by
  rcases pyLowerChar_cases c with ⟨⟨h1, h2⟩, he⟩ | ⟨hn, he⟩
  · rcases pyLowerChar_cases (pyLowerChar c) with ⟨⟨h1', h2'⟩, _⟩ | ⟨_, he'⟩
    · omega
    · exact he'
  · simp [he]

theorem pyLowerChar_toNat_ne_45 (c : Char) (h : c.toNat ≠ 45) :
    (pyLowerChar c).toNat ≠ 45 := by
  rcases pyLowerChar_cases c with ⟨⟨h1, h2⟩, he⟩ | ⟨_, he⟩
  · omega
  · rw [he]; exact h

/-! ### Splitting and joining lemmas -/

theorem pySplit_nil : pySplit [] = [] := rfl

theorem pySplit_cons_ws {c : Char} (s : Text) (h : pyIsSpace c = true) :
    pySplit (c :: s) = pySplit s := by
  simp [pySplit, h]

theorem pySplit_blank (s : Text) (h : ∀ c ∈ s, pyIsSpace c = true) :
    pySplit s = [] := by
  induction s with
  | nil => rfl
  | cons c rest ih =>
    rw [pySplit_cons_ws rest (h c (by simp))]
    exact ih fun d hd => h d (by simp [hd])

theorem pySplit_singleton {d : Char} (hd : pyIsSpace d = false) :
    pySplit [d] = [[d]] := by
  simp [pySplit, hd]

theorem pySplit_cons_word_ws {d e : Char} (rest : Text)
    (hd : pyIsSpace d = false) (he : pyIsSpace e = true) :
    pySplit (d :: e :: rest) = [d] :: pySplit (e :: rest) := by
  simp [pySplit, hd, he]

theorem pySplit_cons_word_word {d e : Char} {rest : Text} {w : Text}
    {ws : List Text} (hd : pyIsSpace d = false) (he : pyIsSpace e = false)
    (h : pySplit (e :: rest) = w :: ws) :
    pySplit (d :: e :: rest) = (d :: w) :: ws := by
  rw [pySplit.eq_def]
  simp [hd, he, h]

theorem pySplit_ne_nil (s : Text) (h : ∃ c ∈ s, pyIsSpace c = false) :
    pySplit s ≠ [] := by
  induction s with
  | nil => simp at h
  | cons d rest ih =>
    by_cases hd : pyIsSpace d = true
    · rw [pySplit_cons_ws rest hd]
      obtain ⟨c, hc, hcw⟩ := h
      rcases List.mem_cons.mp hc with rfl | hmem
      · rw [hd] at hcw; cases hcw
      · exact ih ⟨c, hmem, hcw⟩
    · rw [Bool.not_eq_true] at hd
      match rest with
      | [] => rw [pySplit_singleton hd]; simp
      | e :: rest2 =>
        by_cases he : pyIsSpace e = true
        · rw [pySplit_cons_word_ws rest2 hd he]; simp
        · rw [Bool.not_eq_true] at he
          obtain ⟨w, ws, hsplit⟩ : ∃ w ws, pySplit (e :: rest2) = w :: ws := by
            cases hcase : pySplit (e :: rest2) with
            | nil => exact absurd hcase (ih ⟨e, by simp, he⟩)
            | cons w ws => exact ⟨w, ws, rfl⟩
          rw [pySplit_cons_word_word hd he hsplit]
          simp

theorem pySplit_sound (s : Text) :
    ∀ w ∈ pySplit s, w ≠ [] ∧ ∀ c ∈ w, pyIsSpace c = false ∧ c ∈ s := by
  induction s with
  | nil => intro w hw; cases hw
  | cons d rest ih =>
    intro w hw
    by_cases hd : pyIsSpace d = true
    · rw [pySplit_cons_ws rest hd] at hw
      obtain ⟨hne, hall⟩ := ih w hw
      exact ⟨hne, fun c hc => ⟨(hall c hc).1, by simp [(hall c hc).2]⟩⟩
    · rw [Bool.not_eq_true] at hd
      match rest with
      | [] =>
        rw [pySplit_singleton hd] at hw
        simp only [List.mem_singleton] at hw
        subst hw
        refine ⟨by simp, fun c hc => ?_⟩
        simp only [List.mem_singleton] at hc
        subst hc
        exact ⟨hd, by simp⟩
      | e :: rest2 =>
        by_cases he : pyIsSpace e = true
        · rw [pySplit_cons_word_ws rest2 hd he] at hw
          rcases List.mem_cons.mp hw with rfl | hmem
          · refine ⟨by simp, fun c hc => ?_⟩
            simp only [List.mem_singleton] at hc
            subst hc
            exact ⟨hd, by simp⟩
          · obtain ⟨hne, hall⟩ := ih w hmem
            exact ⟨hne, fun c hc => ⟨(hall c hc).1, by simp [(hall c hc).2]⟩⟩
        · rw [Bool.not_eq_true] at he
          obtain ⟨w0, ws0, hsplit⟩ : ∃ w0 ws0, pySplit (e :: rest2) = w0 :: ws0 := by
            cases hcase : pySplit (e :: rest2) with
            | nil =>
              have := pySplit_ne_nil (e :: rest2) ⟨e, by simp, he⟩
              exact absurd hcase this
            | cons w0 ws0 => exact ⟨w0, ws0, rfl⟩
          rw [pySplit_cons_word_word hd he hsplit] at hw
          have h0 := ih w0 (by rw [hsplit]; simp)
          rcases List.mem_cons.mp hw with rfl | hmem
          · refine ⟨by simp, fun c hc => ?_⟩
            rcases List.mem_cons.mp hc with rfl | hcw
            · exact ⟨hd, by simp⟩
            · exact ⟨(h0.2 c hcw).1, by simp [(h0.2 c hcw).2]⟩
          · have hmem2 : w ∈ pySplit (e :: rest2) := by rw [hsplit]; simp [hmem]
            obtain ⟨hne, hall⟩ := ih w hmem2
            exact ⟨hne, fun c hc => ⟨(hall c hc).1, by simp [(hall c hc).2]⟩⟩

theorem pySplit_word_append :
    ∀ (w s : Text), w ≠ [] → (∀ c ∈ w, pyIsSpace c = false) →
      (s = [] ∨ ∃ d s2, s = d :: s2 ∧ pyIsSpace d = true) →
      pySplit (w ++ s) = w :: pySplit s := by
  intro w
  induction w with
  | nil => intro s hw _ _; exact absurd rfl hw
  | cons c w' ih =>
    intro s _ hnw hs
    have hc : pyIsSpace c = false := hnw c (by simp)
    cases w' with
    | nil =>
      rcases hs with rfl | ⟨d, s2, rfl, hd⟩
      · show pySplit [c] = [c] :: pySplit []
        rw [pySplit_singleton hc, pySplit_nil]
      · exact pySplit_cons_word_ws s2 hc hd
    | cons c' w'' =>
      have hc' : pyIsSpace c' = false := hnw c' (by simp)
      have hih : pySplit ((c' :: w'') ++ s) = (c' :: w'') :: pySplit s :=
        ih s (by simp) (fun x hx => hnw x (by simp [hx])) hs
      exact pySplit_cons_word_word hc hc' hih

theorem pySplit_joinSpace :
    ∀ ws : List Text, (∀ w ∈ ws, w ≠ [] ∧ ∀ c ∈ w, pyIsSpace c = false) →
      pySplit (joinSpace ws) = ws := by
  intro ws
  induction ws with
  | nil => intro _; rfl
  | cons w rest ih =>
    intro h
    cases rest with
    | nil =>
      have hw := h w (by simp)
      have := pySplit_word_append w [] hw.1 hw.2 (Or.inl rfl)
      rw [List.append_nil] at this
      show pySplit w = [w]
      rw [this, pySplit_nil]
    | cons w2 rest2 =>
      have hw := h w (by simp)
      show pySplit (w ++ ' ' :: joinSpace (w2 :: rest2)) = w :: w2 :: rest2
      rw [pySplit_word_append w (' ' :: joinSpace (w2 :: rest2)) hw.1 hw.2
          (Or.inr ⟨' ', joinSpace (w2 :: rest2), rfl, by decide⟩)]
      rw [pySplit_cons_ws _ (by decide)]
      rw [ih fun x hx => h x (by simp [hx])]

theorem mem_joinSpace :
    ∀ (ws : List Text) (c : Char), c ∈ joinSpace ws →
      c = ' ' ∨ ∃ w ∈ ws, c ∈ w := by
  intro ws
  induction ws with
  | nil => intro c h; cases h
  | cons w rest ih =>
    intro c h
    cases rest with
    | nil => exact Or.inr ⟨w, by simp, h⟩
    | cons w2 rest2 =>
      have hj : joinSpace (w :: w2 :: rest2) = w ++ ' ' :: joinSpace (w2 :: rest2) := rfl
      rw [hj] at h
      rcases List.mem_append.mp h with h1 | h2
      · exact Or.inr ⟨w, by simp, h1⟩
      · rcases List.mem_cons.mp h2 with rfl | h3
        · exact Or.inl rfl
        · rcases ih c h3 with rfl | ⟨w', hw', hc'⟩
          · exact Or.inl rfl
          · exact Or.inr ⟨w', by simp [hw'], hc'⟩

theorem joinSpace_cons (w : Text) (ws : List Text) :
    ∃ t, joinSpace (w :: ws) = w ++ t := by
  cases ws with
  | nil => exact ⟨[], (List.append_nil w).symm⟩
  | cons w2 rest2 => exact ⟨' ' :: joinSpace (w2 :: rest2), rfl⟩

/-! ### Normalization lemmas -/

theorem isBlank_eq_false (s : Text) :
    isBlank s = false ↔ ∃ c ∈ s, pyIsSpace c = false := by
  constructor
  · intro h
    by_contra hc
    push_neg at hc
    have hall : isBlank s = true := by
      simp only [isBlank, List.all_eq_true]
      intro c hcs
      have := hc c hcs
      simpa using this
    rw [hall] at h
    cases h
  · rintro ⟨c, hc, hw⟩
    rw [← Bool.not_eq_true]
    intro hall
    simp only [isBlank, List.all_eq_true] at hall
    rw [hall c hc] at hw
    cases hw

theorem normalize_blank (s : Text) (h : isBlank s = true) :
    normalize_text s = [] := by
  have hsplit : pySplit (s.map pyLowerChar) = [] := by
    apply pySplit_blank
    intro c hc
    obtain ⟨d, hd, rfl⟩ := List.mem_map.mp hc
    rw [pyIsSpace_pyLowerChar]
    simp only [isBlank, List.all_eq_true] at h
    exact h d hd
  show joinSpace (pySplit (s.map pyLowerChar)) = []
  rw [hsplit]
  rfl

theorem normalize_not_blank (s : Text) (h : isBlank s = false) :
    isBlank (normalize_text s) = false := by
  obtain ⟨c, hc, hw⟩ := (isBlank_eq_false s).mp h
  have hmem : pyLowerChar c ∈ s.map pyLowerChar := List.mem_map.mpr ⟨c, hc, rfl⟩
  have hlw : pyIsSpace (pyLowerChar c) = false := by
    rw [pyIsSpace_pyLowerChar]; exact hw
  obtain ⟨w, ws, hsplit⟩ : ∃ w ws, pySplit (s.map pyLowerChar) = w :: ws := by
    cases hcase : pySplit (s.map pyLowerChar) with
    | nil =>
      exact absurd hcase (pySplit_ne_nil _ ⟨pyLowerChar c, hmem, hlw⟩)
    | cons w ws => exact ⟨w, ws, rfl⟩
  have hsound := pySplit_sound (s.map pyLowerChar) w (by rw [hsplit]; simp)
  obtain ⟨c0, hc0⟩ : ∃ c0, c0 ∈ w := by
    cases hw0 : w with
    | nil => exact absurd hw0 hsound.1
    | cons c0 rest => exact ⟨c0, by simp⟩
  obtain ⟨t, ht⟩ := joinSpace_cons w ws
  rw [isBlank_eq_false]
  refine ⟨c0, ?_, (hsound.2 c0 hc0).1⟩
  show c0 ∈ joinSpace (pySplit (s.map pyLowerChar))
  rw [hsplit, ht]
  exact List.mem_append.mpr (Or.inl hc0)

theorem map_pyLowerChar_normalize (s : Text) :
    (normalize_text s).map pyLowerChar = normalize_text s := by
  have hfix : ∀ c ∈ normalize_text s, pyLowerChar c = c := by
    intro c hc
    rcases mem_joinSpace _ c hc with rfl | ⟨w, hw, hcw⟩
    · decide
    · have hcs := ((pySplit_sound _ w hw).2 c hcw).2
      obtain ⟨d, _, rfl⟩ := List.mem_map.mp hcs
      exact pyLowerChar_idem d
  conv_rhs => rw [← List.map_id (normalize_text s)]
  exact List.map_congr_left hfix

theorem normalize_idem (s : Text) :
    normalize_text (normalize_text s) = normalize_text s := by
  show joinSpace (pySplit ((normalize_text s).map pyLowerChar)) = normalize_text s
  rw [map_pyLowerChar_normalize]
  show joinSpace (pySplit (joinSpace (pySplit (s.map pyLowerChar)))) = _
  rw [pySplit_joinSpace _ fun w hw =>
    ⟨(pySplit_sound _ w hw).1, fun c hc => ((pySplit_sound _ w hw).2 c hc).1⟩]
  rfl

/-! ### Keyword-matching lemmas -/

theorem prefixOf_subset {k s : Text} (h : k.isPrefixOf s = true) :
    ∀ c ∈ k, c ∈ s := by
  intro c hc
  exact (List.isPrefixOf_iff_prefix.mp h).sublist.subset hc

theorem containsSub_subset :
    ∀ (s k : Text), containsSub k s = true → ∀ c ∈ k, c ∈ s := by
  intro s
  induction s with
  | nil =>
    intro k h c hc
    have : k = [] := by simpa [containsSub] using h
    subst this
    cases hc
  | cons d rest ih =>
    intro k h c hc
    rcases Bool.or_eq_true _ _ |>.mp h with h1 | h2
    · exact prefixOf_subset h1 c hc
    · exact List.mem_cons.mpr (Or.inr (ih k h2 c hc))

theorem matchHere_prefixOf {k : Text} {prev : Option Char} {s : Text}
    (h : matchHere k prev s = true) : k.isPrefixOf s = true := by
  simp only [matchHere, Bool.and_eq_true] at h
  exact h.1.1.2

theorem wbSearchAux_subset :
    ∀ (s : Text) (k : Text) (prev : Option Char),
      wbSearchAux k prev s = true → ∀ c ∈ k, c ∈ s := by
  intro s
  induction s with
  | nil =>
    intro k prev h c hc
    have hp := matchHere_prefixOf (by simpa [wbSearchAux] using h)
    have : k = [] := by
      cases k with
      | nil => rfl
      | cons a as => simp [List.isPrefixOf] at hp
    subst this
    cases hc
  | cons d rest ih =>
    intro k prev h c hc
    rcases Bool.or_eq_true _ _ |>.mp (by simpa [wbSearchAux] using h) with h1 | h2
    · exact prefixOf_subset (matchHere_prefixOf h1) c hc
    · exact List.mem_cons.mpr (Or.inr (ih k (some d) h2 c hc))

theorem contains_interrupt_keyword_nil (ks : List Text) :
    contains_interrupt_keyword ks [] = false := by
  unfold contains_interrupt_keyword
  rw [List.any_eq_false]
  intro k hk
  cases k with
  | nil => decide
  | cons c k' =>
    by_cases hsp : (c :: k').contains ' ' = true
    · rw [if_pos hsp, Bool.not_eq_true]
      rfl
    · rw [if_neg hsp, Bool.not_eq_true]
      rfl

theorem containsSub_no_word {k s : Text} (hk : k.any isWordChar = true)
    (hs : ∀ c ∈ s, isWordChar c = false) : containsSub k s = false := by
  rw [← Bool.not_eq_true]
  intro h
  obtain ⟨c, hck, hcw⟩ := List.any_eq_true.mp hk
  rw [hs c (containsSub_subset s k h c hck)] at hcw
  cases hcw

theorem wbSearch_no_word {k s : Text} (hk : k.any isWordChar = true)
    (hs : ∀ c ∈ s, isWordChar c = false) : wbSearch k s = false := by
  rw [← Bool.not_eq_true]
  intro h
  obtain ⟨c, hck, hcw⟩ := List.any_eq_true.mp hk
  rw [hs c (wbSearchAux_subset s k none h c hck)] at hcw
  cases hcw

theorem keyword_check_no_word {ks : List Text} {s : Text}
    (hks : ∀ k ∈ ks, k.any isWordChar = true)
    (hs : ∀ c ∈ s, isWordChar c = false) :
    contains_interrupt_keyword ks s = false := by
  unfold contains_interrupt_keyword
  rw [List.any_eq_false]
  intro k hk
  by_cases hsp : k.contains ' ' = true
  · rw [if_pos hsp, Bool.not_eq_true]
    exact containsSub_no_word (hks k hk) hs
  · rw [if_neg hsp, Bool.not_eq_true]
    exact wbSearch_no_word (hks k hk) hs

/-! ### Phrase-removal lemmas -/

theorem subAux_id (k : Text) (hk : k.any isWordChar = true) :
    ∀ (s : Text) (prev : Option Char), (∀ c ∈ s, isWordChar c = false) →
      subAux k 0 prev s = s := by
  intro s
  induction s with
  | nil => intro prev _; rfl
  | cons c rest ih =>
    intro prev hs
    have hm : matchHere k prev (c :: rest) = false := by
      rw [← Bool.not_eq_true]
      intro h
      obtain ⟨c', hck, hcw⟩ := List.any_eq_true.mp hk
      rw [hs c' (prefixOf_subset (matchHere_prefixOf h) c' hck)] at hcw
      cases hcw
    rw [subAux.eq_def]
    simp only [hm, Bool.false_eq_true, if_false]
    rw [ih (some c) fun d hd => hs d (by simp [hd])]

theorem foldl_subPhrase_id (phrases : List Text) (s : Text)
    (hp : ∀ p ∈ phrases, p.any isWordChar = true)
    (hs : ∀ c ∈ s, isWordChar c = false) :
    phrases.foldl (fun r p => subPhrase p r) s = s := by
  induction phrases with
  | nil => rfl
  | cons p ps ih =>
    have h1 : subPhrase p s = s := subAux_id p (hp p (by simp)) s none hs
    show List.foldl (fun r p => subPhrase p r) (subPhrase p s) ps = s
    rw [h1]
    exact ih fun q hq => hp q (by simp [hq])

theorem mem_insertByLenDesc {x y : Text} :
    ∀ l : List Text, y ∈ insertByLenDesc x l → y = x ∨ y ∈ l := by
  intro l
  induction l with
  | nil => intro h; simpa [insertByLenDesc] using h
  | cons z zs ih =>
    intro h
    unfold insertByLenDesc at h
    by_cases hc : z.length ≤ x.length
    · rw [if_pos hc] at h
      rcases List.mem_cons.mp h with rfl | h2
      · exact Or.inl rfl
      · exact Or.inr h2
    · rw [if_neg hc] at h
      rcases List.mem_cons.mp h with rfl | h2
      · exact Or.inr (by simp)
      · rcases ih h2 with rfl | h3
        · exact Or.inl rfl
        · exact Or.inr (by simp [h3])

theorem mem_sortByLenDesc {y : Text} :
    ∀ l : List Text, y ∈ sortByLenDesc l → y ∈ l := by
  intro l
  induction l with
  | nil => intro h; cases h
  | cons z zs ih =>
    intro h
    rcases mem_insertByLenDesc (sortByLenDesc zs) h with rfl | h2
    · simp
    · simp [ih h2]

/-! ### Token-cleaning lemmas -/

theorem dropWhile_eq_self {p : Char → Bool} :
    ∀ l : Text, (∀ c ∈ l, p c = false) → l.dropWhile p = l := by
  intro l
  induction l with
  | nil => intro _; rfl
  | cons c rest _ =>
    intro h
    rw [List.dropWhile_cons, h c (by simp)]
    simp

theorem pyStrip_of_no_ws (s : Text) (h : ∀ c ∈ s, pyIsSpace c = false) :
    pyStrip s = s := by
  unfold pyStrip
  rw [dropWhile_eq_self s h]
  rw [dropWhile_eq_self s.reverse fun c hc => h c (List.mem_reverse.mp hc)]
  exact List.reverse_reverse s

theorem clean_word_eq_filter (w : Text) (h : ∀ c ∈ w, pyIsSpace c = false) :
    clean_word w = w.filter fun c => isWordChar c || c.toNat == 45 := by
  unfold clean_word
  have hfc : w.filter keepChar = w.filter fun c => isWordChar c || c.toNat == 45 :=
    List.filter_congr fun c hc => by simp [keepChar, h c hc]
  rw [hfc]
  exact pyStrip_of_no_ws _ fun c hc => h c (List.mem_of_mem_filter hc)

theorem char_eq_of_toNat_eq {c d : Char} (h : c.toNat = d.toNat) : c = d :=
  Char.eq_of_val_eq (UInt32.ext h)

/-- Modelled from the spec's words (claim C3): strip punctuation characters
(any character that is not alphanumeric, underscore, whitespace, or hyphen)
only from the token's edges, preserving all interior characters. -/
def clean_word_spec_edges (w : Text) : Text :=
  ((w.dropWhile fun c => !keepChar c).reverse.dropWhile fun c => !keepChar c).reverse

/-- The spec's verbatim ignore-word enumeration (yeah through mm-hmm). -/
def spec_ignore_enumeration : List Text :=
  [str "yeah", str "yes", str "yep", str "yup", str "ya", str "ok", str "okay",
   str "hmm", str "hm", str "mhm", str "uh-huh", str "uh huh", str "uhuh",
   str "right", str "aha", str "ah", str "oh", str "i see", str "sure",
   str "got it", str "gotcha", str "alright", str "cool", str "nice",
   str "great", str "good", str "fine", str "true", str "indeed",
   str "absolutely", str "exactly", str "certainly", str "definitely",
   str "of course", str "mm", str "mmm", str "mmhmm", str "mm-hmm"]

/-- The spec's verbatim interrupt-keyword enumeration (stop through the
contraction w-o-n-apostrophe-t). -/
def spec_interrupt_enumeration : List Text :=
  [str "stop", str "wait", str "hold on", str "hold up", str "pause", str "no",
   str "nope", str "actually", str "but", str "however", str "excuse me",
   str "sorry", str "hang on", str "one moment", str "one second",
   str "just a moment", str "just a second", str "let me", str "i have",
   str "i need", str "i want", str "can you", str "could you", str "would you",
   str "what about", str "what if", str "how about", str "listen", str "hey",
   str "hello", str "hi", str "question", str "wait a minute",
   str "wait a second", str "not", str "never", contraction "don" "t",
   contraction "can" "t", contraction "won" "t"]

/-! ### Claim theorems -/

/-- C1: with the filter enabled and the agent speaking, any transcript whose
normalized form matches an interrupt keyword makes `should_interrupt` return
true — the keyword check is decided before the ignore check, so ignore words
present alongside the keyword cannot suppress it.  The matching rule embedded
in `contains_interrupt_keyword` is: keywords with an internal space match as
literal substrings anywhere (no boundary enforcement), keywords without a
space match only at word boundaries, so the keyword spelled n-o matches the
standalone word but not the inside of another word. -/
theorem C1_keyword_precedence :
    (∀ (cfg : InterruptionFilterConfig) (t : Text), cfg.enabled = true →
        contains_interrupt_keyword cfg.interrupt_keywords (normalize_text t) = true →
        should_interrupt cfg t true = true) ∧
      wbSearch (str "no") (str "no") = true ∧
      wbSearch (str "no") (str "i know") = false ∧
      containsSub (str "hold on") (str "please hold online") = true := by
  refine ⟨?_, by decide, by decide, by decide⟩
  intro cfg t he hkw
  have hb : isBlank t = false := by
    rw [← Bool.not_eq_true]
    intro hbt
    rw [normalize_blank t hbt, contains_interrupt_keyword_nil] at hkw
    cases hkw
  unfold should_interrupt
  simp [he, hb, hkw]

/-- Witness for C1 at the mixed transcript "yeah but wait". -/
theorem C1_witness : should_interrupt defaultConfig (str "yeah but wait") true = true :=
  C1_keyword_precedence.1 defaultConfig (str "yeah but wait") rfl (by decide)

/-- C2: with the filter enabled, the agent speaking, a non-blank transcript
and no interrupt-keyword match, `should_interrupt` returns false exactly when
the ignore-word-exhaustiveness check `is_only_ignore_words` (remove multi-word
ignore phrases longest-first, each occurrence replaced by a single space, then
require every remaining token with a non-empty cleaned form to clean into the
ignore set) succeeds on the normalized transcript, and true otherwise. -/
theorem C2_ignore_exhaustiveness :
    (∀ (cfg : InterruptionFilterConfig) (t : Text), cfg.enabled = true →
        isBlank t = false →
        contains_interrupt_keyword cfg.interrupt_keywords (normalize_text t) = false →
        (should_interrupt cfg t true = false ↔
          is_only_ignore_words cfg.ignore_words (normalize_text t) = true)) ∧
      should_interrupt defaultConfig (str "yeah ok hmm") true = false ∧
      should_interrupt defaultConfig (str "i see") true = false := by
  refine ⟨?_, by decide, by decide⟩
  intro cfg t he hb hkw
  unfold should_interrupt
  simp only [he, hb, hkw, Bool.not_true, Bool.false_eq_true, if_false,
    Bool.true_eq_false]
  cases h : is_only_ignore_words cfg.ignore_words (normalize_text t) <;> simp [h]

/-- Witness for C2 at the pure-acknowledgement transcript "yeah ok hmm". -/
theorem C2_witness : should_interrupt defaultConfig (str "yeah ok hmm") true = false :=
  (C2_ignore_exhaustiveness.1 defaultConfig (str "yeah ok hmm") rfl (by decide)
    (by decide)).mpr (by decide)

/-- C3 counterexample: the source cleaning removes interior punctuation, so it
differs from the spec's edges-only stripping on the token "o,k"; behaviourally
the transcript "o,k" is classified as only-ignore-words (cleaned to "ok") and
does not interrupt. -/
theorem C3_counterexample :
    clean_word (str "o,k") ≠ clean_word_spec_edges (str "o,k") ∧
      clean_word (str "o,k") = str "ok" ∧
      clean_word_spec_edges (str "o,k") = str "o,k" ∧
      should_interrupt defaultConfig (str "o,k") true = false := by
  refine ⟨by decide, by decide, by decide, by decide⟩

/-- C3 amended: token cleaning removes every punctuation character (any
character that is not alphanumeric, underscore, whitespace, or hyphen) from
anywhere in the token, not only from its edges; on whitespace-free tokens
(which is what the splitter produces) it equals filtering the token down to
its word characters and hyphens. -/
theorem C3_cleaning_filters_everywhere (w : Text)
    (h : ∀ c ∈ w, pyIsSpace c = false) :
    clean_word w = w.filter fun c => isWordChar c || c.toNat == 45 :=
  clean_word_eq_filter w h

/-- Witness for the amended C3 at the token "o,k". -/
theorem C3_witness :
    clean_word (str "o,k") =
      (str "o,k").filter fun c => isWordChar c || c.toNat == 45 :=
  C3_cleaning_filters_everywhere (str "o,k") (by decide)

/-- C4 counterexample: the default ignore set has 38 distinct entries, not 37
as the claim states. -/
theorem C4_counterexample :
    DEFAULT_IGNORE_WORDS.Nodup ∧ DEFAULT_IGNORE_WORDS.length = 38 ∧
      DEFAULT_IGNORE_WORDS.length ≠ 37 := by
  refine ⟨by decide, by decide, by decide⟩

/-- C4 amended: the default ignore set contains exactly the 38 entries of the
spec's verbatim enumeration (yeah through mm-hmm; the spec's headline count of
37 is off by one) and the default interrupt set contains exactly the 39
entries of the spec's enumeration (stop through the contraction won-t). -/
theorem C4_default_sets :
    DEFAULT_IGNORE_WORDS = spec_ignore_enumeration ∧
      DEFAULT_IGNORE_WORDS.Nodup ∧ DEFAULT_IGNORE_WORDS.length = 38 ∧
      DEFAULT_INTERRUPT_KEYWORDS = spec_interrupt_enumeration ∧
      DEFAULT_INTERRUPT_KEYWORDS.Nodup ∧ DEFAULT_INTERRUPT_KEYWORDS.length = 39 := by
  refine ⟨rfl, by decide, by decide, rfl, by decide, by decide⟩

/-- C5: when the configuration is disabled, `should_interrupt` returns true
for every transcript and both speaking states. -/
theorem C5_disabled_bypasses (cfg : InterruptionFilterConfig) (t : Text)
    (b : Bool) (h : cfg.enabled = false) : should_interrupt cfg t b = true := by
  unfold should_interrupt
  rw [h]
  rfl

/-- Witness for C5 with the default word sets and the filter disabled. -/
theorem C5_witness : should_interrupt disabledConfig (str "yeah") true = true :=
  C5_disabled_bypasses disabledConfig (str "yeah") true rfl

/-- C6: with the filter enabled and the agent not speaking, `should_interrupt`
returns true for every transcript. -/
theorem C6_silent_always_true (cfg : InterruptionFilterConfig) (t : Text)
    (h : cfg.enabled = true) : should_interrupt cfg t false = true := by
  unfold should_interrupt
  rw [h]
  rfl

/-- Witness for C6 at the filler transcript "yeah". -/
theorem C6_witness : should_interrupt defaultConfig (str "yeah") false = true :=
  C6_silent_always_true defaultConfig (str "yeah") rfl

/-- C7: with the filter enabled and the agent speaking, an empty or
whitespace-only transcript gives false. -/
theorem C7_blank_false (cfg : InterruptionFilterConfig) (t : Text)
    (he : cfg.enabled = true) (hb : ∀ c ∈ t, pyIsSpace c = true) :
    should_interrupt cfg t true = false := by
  have hblank : isBlank t = true := List.all_eq_true.mpr hb
  unfold should_interrupt
  simp [he, hblank]

/-- Witness for C7 at the whitespace transcript of three spaces. -/
theorem C7_witness : should_interrupt defaultConfig (str "   ") true = false :=
  C7_blank_false defaultConfig (str "   ") rfl (by decide)

/-- C8: under the agent-speaking state, the decision on a transcript equals
the decision on its normalized form for every configuration, so changing only
letter case or surrounding/internal extra whitespace never changes the
result. -/
theorem C8_normalization_invariance :
    (∀ (cfg : InterruptionFilterConfig) (t : Text),
        should_interrupt cfg t true = should_interrupt cfg (normalize_text t) true) ∧
      should_interrupt defaultConfig (str "YEAH") true =
        should_interrupt defaultConfig (str "yeah") true ∧
      should_interrupt defaultConfig (str "  yeah  ") true =
        should_interrupt defaultConfig (str "yeah") true := by
  refine ⟨?_, by decide, by decide⟩
  intro cfg t
  unfold should_interrupt
  cases hen : cfg.enabled with
  | false => simp [hen]
  | true =>
    cases hbt : isBlank t with
    | true =>
      have h1 : normalize_text t = [] := normalize_blank t hbt
      simp [hen, hbt, h1, isBlank]
    | false =>
      have h2 : isBlank (normalize_text t) = false := normalize_not_blank t hbt
      have h3 := normalize_idem t
      simp [hen, hbt, h2, h3]

/-- C9: the decision function is total — for every configuration, transcript
and speaking state it returns one of the two booleans.  Totality of the
embedding (all recursions terminate) is certified by Lean accepting the
definitions. -/
theorem C9_totality (cfg : InterruptionFilterConfig) (t : Text) (b : Bool) :
    should_interrupt cfg t b = true ∨ should_interrupt cfg t b = false := by
  cases h : should_interrupt cfg t b
  · exact Or.inr rfl
  · exact Or.inl rfl

/-- C10: under the default configuration with the agent speaking, a transcript
with at least one non-whitespace character but no alphanumerics, underscores
or hyphens cannot match any interrupt keyword, every token cleans to the
empty string, and the text is classified as only-ignore-words, so
`should_interrupt` returns false. -/
theorem C10_pure_punctuation (t : Text)
    (h1 : ∃ c ∈ t, pyIsSpace c = false)
    (h2 : ∀ c ∈ t, isWordChar c = false ∧ c ≠ '-') :
    should_interrupt defaultConfig t true = false := by
  have hb : isBlank t = false := (isBlank_eq_false t).mpr h1
  have hnw : ∀ c ∈ normalize_text t, isWordChar c = false ∧ c.toNat ≠ 45 := by
    intro c hc
    rcases mem_joinSpace _ c hc with rfl | ⟨w, hw, hcw⟩
    · exact ⟨by decide, by decide⟩
    · have hcs := ((pySplit_sound _ w hw).2 c hcw).2
      obtain ⟨d, hd, rfl⟩ := List.mem_map.mp hcs
      have hd2 := h2 d hd
      refine ⟨by rw [isWordChar_pyLowerChar]; exact hd2.1, ?_⟩
      apply pyLowerChar_toNat_ne_45
      intro hcon
      exact hd2.2 (char_eq_of_toNat_eq hcon)
  have hkwords : ∀ k ∈ DEFAULT_INTERRUPT_KEYWORDS, k.any isWordChar = true := by
    decide
  have hkw : contains_interrupt_keyword DEFAULT_INTERRUPT_KEYWORDS
      (normalize_text t) = false :=
    keyword_check_no_word hkwords fun c hc => (hnw c hc).1
  have hconc : ∀ p ∈ DEFAULT_IGNORE_WORDS.filter (fun w => w.contains ' '),
      p.any isWordChar = true := by decide
  have hphrases : ∀ p ∈ sortByLenDesc
      (DEFAULT_IGNORE_WORDS.filter fun w => w.contains ' '),
      p.any isWordChar = true :=
    fun p hp => hconc p (mem_sortByLenDesc _ hp)
  have hfold : (sortByLenDesc (DEFAULT_IGNORE_WORDS.filter fun w =>
      w.contains ' ')).foldl (fun r p => subPhrase p r) (normalize_text t) =
      normalize_text t :=
    foldl_subPhrase_id _ _ hphrases fun c hc => (hnw c hc).1
  have hionly : is_only_ignore_words DEFAULT_IGNORE_WORDS (normalize_text t) = true := by
    unfold is_only_ignore_words
    simp only [hfold]
    by_cases hsplit : (pySplit (normalize_text t)).isEmpty = true
    · simp [hsplit]
    · have hall : ∀ w ∈ pySplit (normalize_text t),
          ((clean_word w).isEmpty || DEFAULT_IGNORE_WORDS.contains (clean_word w)) = true := by
        intro w hw
        have hsound := pySplit_sound _ w hw
        have hfilter : w.filter keepChar = [] := by
          rw [List.filter_eq_nil_iff]
          intro c hc
          have hcn := hnw c (hsound.2 c hc).2
          have hcw := (hsound.2 c hc).1
          simp [keepChar, hcn.1, hcw, hcn.2]
        have hclean : clean_word w = [] := by
          unfold clean_word
          rw [hfilter]
          rfl
        simp [hclean]
      simp only [hsplit, if_false, Bool.false_eq_true]
      exact List.all_eq_true.mpr hall
  unfold should_interrupt
  simp [hb, hkw, hionly]
  exact ⟨rfl, hkw, hionly⟩

/-- Witness for C10 at the transcript of three exclamation marks. -/
theorem C10_witness : should_interrupt defaultConfig (str "!!!") true = false :=
  C10_pure_punctuation (str "!!!") (by decide) (by decide)

end InterruptionFilter
